import Mathlib

/-!
Verification of `make_workflow.py`: a shallow embedding of the build-document
authoring engine (class `Workflow`), its argument normalizers, the version
probe `get_make_version`, and the execution driver `Workflow.run`, together
with theorems settling the specification claims.

The document backing file is modelled as its list of text lines (each stored
without its trailing newline character; every `f.write` in the source ends at
a line boundary).  Python string operations used by the source (`str.rstrip`,
`' '.join`, `str.replace`, `os.path.normpath`, `str.split`) are modelled by
executable Lean functions defined below.
-/

namespace MakeWorkflow

/-- Model of the whitespace set stripped by Python `str.rstrip()`. -/
def pyIsSpace (c : Char) : Bool :=
  c == ' ' || c == '\t' || c == '\n' || c == '\x0b' || c == '\x0c' || c == '\r'

/-- Python `str.rstrip()` on a character list: drop trailing whitespace. -/
def rstripC (l : List Char) : List Char :=
  (l.reverse.dropWhile pyIsSpace).reverse

/-- Python `str.rstrip()`. -/
def pyRstrip (s : String) : String := ⟨rstripC s.data⟩

/-- Python `' '.join(l)`: concatenate with a single space between elements. -/
def pyJoinSp : List String → String
  | [] => ""
  | [x] => x
  | x :: y :: xs => x ++ " " ++ pyJoinSp (y :: xs)

/-- Python `sep.join(l)` for an arbitrary separator (used by `normpath`). -/
def pyJoin (sep : String) : List String → String
  | [] => ""
  | [x] => x
  | x :: y :: xs => x ++ sep ++ pyJoin sep (y :: xs)

/-- Python `s.split(sep)` for a one-character separator, on character lists:
splits at every occurrence, keeping empty pieces (as Python does). -/
def splitSep (sep : Char) : List Char → List (List Char)
  | [] => [[]]
  | c :: cs =>
    match splitSep sep cs with
    | [] => []
    | r :: rs => if c = sep then [] :: r :: rs else (c :: r) :: rs

/-- Python `s.split(sep)` on strings, one-character separator. -/
def pySplit (sep : Char) (s : String) : List String :=
  (splitSep sep s.data).map String.mk

/-- Python `s.startswith(p)` modelled on character lists. -/
def pyStartsWith (p : String) (s : String) : Bool :=
  p.data.isPrefixOf s.data

/-- Python `s.replace(old, new)` for a one-character `old`, on character
lists (every occurrence replaced). -/
def replaceC (old : Char) (new : List Char) : List Char → List Char
  | [] => []
  | c :: cs => (if c = old then new else [c]) ++ replaceC old new cs

/-- Python `s.replace(old, new)` for a one-character `old`. -/
def pyReplace (old : Char) (new : String) (s : String) : String :=
  ⟨replaceC old new.data s.data⟩

/-- Model of CPython `posixpath.normpath`: collapse redundant separators and
`.` components, resolve `..` where possible, keep up to two leading slashes. -/
def normpath (path : String) : String :=
  if path = "" then "." else
  let initialSlashes : Nat :=
    if pyStartsWith "/" path then
      if pyStartsWith "//" path ∧ ¬ pyStartsWith "///" path then 2 else 1
    else 0
  let comps := pySplit '/' path
  let newComps := comps.foldl (fun acc comp =>
    if comp = "" ∨ comp = "." then acc
    else if comp ≠ ".." ∨ (initialSlashes = 0 ∧ acc = []) ∨ acc.getLast? = some ".."
    then acc ++ [comp]
    else acc.dropLast) []
  let p := pyJoin "/" newComps
  let p := String.join (List.replicate initialSlashes "/") ++ p
  if p = "" then "." else p

/-- Shape of a Python argument accepted at the engine boundary: a single
string, an iterable of strings (list, tuple, array), or anything else. -/
inductive Arg where
  | str (s : String)
  | list (l : List String)
  | other
deriving DecidableEq

/-- Python-level failures raised by the engine. -/
inductive Err where
  /-- `sys.exit()` after printing an ERROR message (bad argument shape). -/
  | systemExit
  /-- `AttributeError`: `self.new_version` was never assigned. -/
  | attributeError
  /-- `IndexError`: `outputs[0]` on an empty list. -/
  | indexError
deriving DecidableEq

/-- `check_args_inout` from the source: a nonempty string is path-normalized,
an empty string is kept, an iterable is normalized element-wise and joined
with spaces; any other shape prints an error and exits. -/
def check_args_inout : Arg → Except Err String
  | .str s => if 0 < s.length then .ok (normpath s) else .ok s
  | .list l => .ok (pyJoinSp (l.map normpath))
  | .other => .error .systemExit

/-- `check_args_output` from the source: a nonempty string becomes a
one-element normalized list, an empty string the empty list, an iterable is
normalized element-wise; any other shape prints an error and exits. -/
def check_args_output : Arg → Except Err (List String)
  | .str s => if 0 < s.length then .ok [normpath s] else .ok []
  | .list l => .ok (l.map normpath)
  | .other => .error .systemExit

/-- `check_args_cmd` from the source: a string becomes a one-element list,
an iterable passes through; any other shape prints an error and exits. -/
def check_args_cmd : Arg → Except Err (List String)
  | .str s => .ok [s]
  | .list l => .ok l
  | .other => .error .systemExit

/-- `escape_char` from the source: escape single quote, double quote and
newline before embedding a string in the makefile. -/
def escape_char (string : String) : String :=
  pyReplace '\n' "\\n" (pyReplace '"' "\\\"" (pyReplace '\x27' "\\\x27" string))

/-! ### The capability probe: `get_make_version` and the `> 4.3` comparison -/

/-- What happens when `subprocess.Popen(["make", "-v"])` is attempted:
either the tool cannot be invoked (`FileNotFoundError` from `Popen`) or it
runs and produces some stdout text. -/
inductive ProbeOutcome where
  | notInvocable
  | output (stdout : String)

/-- Exceptions escaping `get_make_version` (the source has no try/except). -/
inductive ProbeErr where
  /-- `FileNotFoundError`: the external tool is not invocable. -/
  | fileNotFound
  /-- `packaging.version.InvalidVersion`: the extracted token is not a
  parseable version. -/
  | invalidVersion
deriving DecidableEq

/-- Release tuple of a parsed version: `packaging.version.parse` on a plain
dotted-numeric string yields this list of numeric components. Returns `none`
when the token is not dotted-numeric (modern `packaging` raises
`InvalidVersion` there). -/
def parseVersion (s : String) : Option (List Nat) :=
  let comps := pySplit '.' s
  if comps.all (fun c => ¬ c.isEmpty && c.data.all Char.isDigit) then
    some (comps.map (fun c => c.data.foldl (fun n d => n * 10 + (d.toNat - 48)) 0))
  else none

/-- Strict `<` on release tuples, zero-padded lexicographically, as
`packaging.version` compares plain release versions. -/
def versionLt : List Nat → List Nat → Bool
  | [], bs => bs.any (fun b => 0 < b)
  | _ :: _, [] => false
  | a :: as, b :: bs => if a < b then true else if b < a then false else versionLt as bs

/-- The token extraction done by `get_make_version`: first line of stdout,
then the last space-separated item of that line. -/
def extractToken (stdout : String) : String :=
  ((pySplit ' ' ((pySplit '\n' stdout).headD "")).getLastD "")

/-- `get_make_version` from the source: run `make -v`, decode, take the first
line, take its last token, parse it as a version.  There is no exception
handling: a failure to invoke the tool or to parse the token propagates. -/
def get_make_version : ProbeOutcome → Except ProbeErr (List Nat)
  | .notInvocable => .error .fileNotFound
  | .output stdout =>
    match parseVersion (extractToken stdout) with
    | some v => .ok v
    | none => .error .invalidVersion

/-- The capability computation in `Workflow.__init__`:
`get_make_version() > version.parse("4.3")`, i.e. `new_version` is true
exactly when the parsed version strictly exceeds release `(4, 3)`. -/
def newVersionFlag (out : ProbeOutcome) : Except ProbeErr Bool :=
  (get_make_version out).map (fun v => versionLt [4, 3] v)

/-! ### The `Workflow` document state -/

/-- State of a `Workflow` object: the backing file content as a list of lines
(stored without their trailing newline), the `new_version` attribute (`none`
when the constructor returned through the continuation branch, which never
assigns it), and the file read position (as a line index; every public
operation leaves it at end of file except the continuation constructor's
`seek(0)`). -/
structure Workflow where
  lines : List String
  new_version : Option Bool
  pos : Nat
deriving DecidableEq

/-- The fixed lines written by `__init__` before the `MAIN` line:
`.PHONY` declaration and the two color definitions (with a literal ESC). -/
def headerPrefix : List String :=
  [".PHONY: MAIN", "", "CMDCOL := \x1b[32m", "DEFCOL := \x1b[0m", ""]

/-- The `list` diagnostic target written at the end of `__init__` (the
source's string continuations keep eight spaces of indentation). -/
def listTarget : List String :=
  ["list:",
   "\t@printf \x27** Missing outputs **\\n\x27",
   "\t@$(MAKE) -n --debug -f $(lastword $(MAKEFILE_LIST)) |         sed -n -e \x27s/^.*Must remake target //p\x27 |         sed -e \x27/MAIN/d\x27 | sed -e \x27/pre-build/d\x27",
   ""]

/-- Lines written by `__init__` for the `MAIN` target: without a title just
the bare aggregate line; with a title the aggregate depends on `pre-build`
whose recipe prints the title — embedded verbatim, without `escape_char`. -/
def mainHeader : Option String → List String
  | none => ["MAIN: ", ""]
  | some title => ["MAIN: pre-build ", "", "pre-build:", "\t@+printf \x27" ++ title ++ "\\n\x27", ""]

/-- `Workflow.__init__` through the fresh-file branch (no filename, or a new
or overwritten path): writes the header, the `MAIN` line, the `list` target,
and freezes the probed capability in `new_version`. -/
def Workflow.initFresh (title : Option String) (new_version : Bool) : Workflow :=
  ⟨headerPrefix ++ mainHeader title ++ listTarget, some new_version,
   (headerPrefix ++ mainHeader title ++ listTarget).length⟩

/-- `Workflow.__init__` through the continuation branch (`filename` exists
and `overwrite` is false): reopen in append mode, `seek(0)`, and return —
nothing is written, no capability probe runs, and `self.new_version` is
never assigned. -/
def Workflow.initContinue (existing : List String) : Workflow :=
  ⟨existing, none, 0⟩

/-! ### `Workflow.append` -/

/-- The fixed recipe of a legacy forwarding rule (make < 4.3, extra
outputs): refresh the output's timestamp if present, otherwise delete the
chain predecessor and rebuild it. -/
def cmd_add_output : String :=
  "if test -f $@; then touch -h $@; else if [ -f $^ ]; then rm -f $^ && ${MAKE} $^; fi; fi"

/-- The target/dependency header line(s) of a rule: a blank line plus, for
make > 4.3, one grouped `&:` header listing every output; for older make a
header keyed by the first output only (`outs.headD` is only reached with
nonempty `outs`: `append` raises `IndexError` first otherwise). -/
def ruleHeaderLines (nv : Bool) (outs : List String) (ins soft : String) : List String :=
  if nv then
    if 0 < soft.length then ["", pyJoinSp outs ++ " &: " ++ ins ++ " | " ++ soft]
    else ["", pyJoinSp outs ++ " &: " ++ ins]
  else
    if 0 < soft.length then ["", outs.headD "" ++ " : " ++ ins ++ " | " ++ soft]
    else ["", outs.headD "" ++ " : " ++ ins]

/-- The optional title recipe line of `append`: prints the title, escaped
with `escape_char`. -/
def titleLines : Option String → List String
  | none => []
  | some t => ["\t@+printf \x27" ++ escape_char t ++ "\\n\x27"]

/-- The two recipe lines per command: an echoed preview (colored, with `-@`)
and the real invocation; when not verbose, stdout goes to `/dev/null`. -/
def cmdLines (verbose : Bool) (cmd : String) : List String :=
  let cmd := if ¬ verbose then cmd ++ " 1> /dev/null" else cmd
  ["\t-@echo \x27${CMDCOL}+" ++ cmd ++ "${DEFCOL}\x27", "\t@" ++ cmd]

/-- The legacy forwarding rules for make < 4.3: for every output after the
first, a rule `outs[k] : outs[k-1]` with the `cmd_add_output` recipe
(the source's `len(outputs) > 1` guard is subsumed: this is `[]` on shorter
lists). -/
def fwdRules : List String → List String
  | o0 :: o1 :: rest => ["", o1 ++ " : " ++ o0, "\t@" ++ cmd_add_output] ++ fwdRules (o1 :: rest)
  | _ => []

/-- Every line of text a single `append` call writes before the `MAIN`
rewrite (or the `.SECONDARY` declaration): header, optional title recipe,
command recipes, then the legacy forwarding rules. -/
def ruleBlockLines (nv : Bool) (outs : List String) (ins soft : String)
    (title : Option String) (cmds : List String) (verbose : Bool) : List String :=
  ruleHeaderLines nv outs ins soft ++ titleLines title ++
    (cmds.map (cmdLines verbose)).flatten ++ (if nv then [] else fwdRules outs)

/-- The first four characters compared by `line[:4] == "MAIN"`. -/
def mainTag : List Char := ['M', 'A', 'I', 'N']

/-- The rewrite `append` applies to every line whose first four characters
are `MAIN`: `" ".join([line.rstrip(), *outputs, "\n"])` — the joined
trailing `"\n"` contributes the final space and the line terminator. -/
def extendMain (outs : List String) (line : String) : String :=
  pyJoinSp (pyRstrip line :: outs) ++ " "

/-- The writing phase of `append`, after the three path arguments have been
normalized and `self.new_version` has been read successfully: for old make,
an empty output list raises `IndexError` at `outputs[0]`; otherwise the rule
block is written and either the `.SECONDARY` declaration is appended or every
`MAIN`-prefixed line is extended with the new outputs. -/
def appendWrite (lines : List String) (nv : Bool) (outs : List String) (ins soft : String)
    (title : Option String) (secondary : Bool) (cmds : Arg) (verbose : Bool) :
    Except Err Workflow :=
  if nv = false ∧ outs = [] then .error .indexError
  else
    match check_args_cmd cmds with
    | .error e => .error e
    | .ok cs =>
      let lines1 := lines ++ ruleBlockLines nv outs ins soft title cs verbose
      if secondary then
        let lines2 := lines1 ++ ["", ".SECONDARY : " ++ pyJoinSp outs]
        .ok ⟨lines2, some nv, lines2.length⟩
      else
        let lines2 := lines1.map
          (fun l => if l.data.take 4 = mainTag then extendMain outs l else l)
        .ok ⟨lines2, some nv, lines2.length⟩

/-- `Workflow.append`, factored over the two state fields it reads.
Normalizes the three path arguments in source order, reads
`self.new_version` (raising `AttributeError` when the continuation
constructor never assigned it), then performs the writing phase. -/
def appendCore (lines : List String) (nv? : Option Bool) (cmds inputs outputs : Arg)
    (title : Option String) (secondary : Bool) (soft_inputs : Arg) (verbose : Bool) :
    Except Err Workflow :=
  match check_args_output outputs with
  | .error e => .error e
  | .ok outs =>
    match check_args_inout inputs with
    | .error e => .error e
    | .ok ins =>
      match check_args_inout soft_inputs with
      | .error e => .error e
      | .ok soft =>
        match nv? with
        | none => .error .attributeError
        | some nv => appendWrite lines nv outs ins soft title secondary cmds verbose

/-- `Workflow.append` from the source. -/
def Workflow.append (wf : Workflow) (cmds inputs outputs : Arg) (title : Option String)
    (secondary : Bool) (soft_inputs : Arg) (verbose : Bool) : Except Err Workflow :=
  appendCore wf.lines wf.new_version cmds inputs outputs title secondary soft_inputs verbose

/-- The document text: all lines, each with its newline terminator. -/
def docText (wf : Workflow) : String :=
  String.join (wf.lines.map (fun l => l ++ "\n"))

/-- `Workflow.display` (the render operation): `seek(0)`, read the whole
file, print it.  Returns the text read and the state afterwards (content
untouched, read position at end of file). -/
def Workflow.display (wf : Workflow) : String × Workflow :=
  (docText wf, ⟨wf.lines, wf.new_version, wf.lines.length⟩)

/-! ### The execution driver `Workflow.run` -/

/-- The runtime type of the `njobs` argument: `isinstance(njobs, int)` either
holds (with some integer value) or does not. -/
inductive NJobs where
  | int (n : Int)
  | notInt
deriving DecidableEq

/-- Failure of `run`: `sys.exit()` after printing the njobs type error. -/
inductive RunErr where
  | systemExit
deriving DecidableEq

/-- The command string `run` builds: base invocation against the backing
file, `-j` only for `njobs > 1`, then the flag translations in source
order, then `other_args` verbatim. -/
def buildRunCmd (filename : String) (njobs : Int) (dryrun debug ignore_err force clean : Bool)
    (other_args : Option String) : String :=
  let cmd := "make -f " ++ filename
  let cmd := if 1 < njobs then cmd ++ " -j " ++ toString njobs else cmd
  let cmd := if dryrun then cmd ++ " -n --no-print-directory" else cmd
  let cmd := if debug then cmd ++ " -d" else cmd
  let cmd := if ignore_err then cmd ++ " -i" else cmd
  let cmd := if force then cmd ++ " -B" else cmd
  let cmd := if clean then cmd ++ " clean" else cmd
  match other_args with
  | some s => cmd ++ " " ++ s
  | none => cmd

/-- `Workflow.run` from the source, with the external shell abstracted as
`exec : String → Int` (command text to exit status).  The first component is
the trace of `subprocess.run` invocations (command and its exit status); the
second is what the method gives back to its caller: `sys.exit` on a
non-integer `njobs`, otherwise `None` — the Python `subprocess.run` result
is discarded, so the exit status never reaches the caller. -/
def Workflow.run (exec : String → Int) (filename : String) (njobs : NJobs)
    (dryrun debug ignore_err force clean : Bool) (other_args : Option String) :
    List (String × Int) × Except RunErr Unit :=
  match njobs with
  | .notInt => ([], .error .systemExit)
  | .int n =>
    let cmd := buildRunCmd filename n dryrun debug ignore_err force clean other_args
    ([(cmd, exec cmd)], .ok ())

/-! ### Observations on the document -/

/-- A well-formed dependency token: nonempty and free of whitespace (make
would not treat a token with internal spaces as one dependency anyway). -/
def goodTok (o : String) : Prop := o ≠ "" ∧ ∀ c ∈ o.data, pyIsSpace c = false

instance (o : String) : Decidable (goodTok o) := by
  unfold goodTok; infer_instance

/-- The ten characters that open a secondary declaration. -/
def secTag : List Char := ['.', 'S', 'E', 'C', 'O', 'N', 'D', 'A', 'R', 'Y']

/-- A token that is well formed and does not itself masquerade as a
secondary declaration opener. -/
def cleanTok (o : String) : Prop := goodTok o ∧ o.data.take 10 ≠ secTag

instance (o : String) : Decidable (cleanTok o) := by
  unfold cleanTok; infer_instance

/-- Does this line open a secondary declaration block? -/
def isSecLine (l : String) : Bool := l.data.take 10 == secTag

/-- Does `line[:4] == "MAIN"` hold, i.e. would `append` extend this line? -/
def isMainLine (l : String) : Bool := l.data.take 4 == mainTag

/-- The space-separated tokens of a line (empty pieces dropped), the reading
under which the `MAIN` line carries its dependency list. -/
def lineTokens (s : String) : List String :=
  ((splitSep ' ' s.data).filter (fun t => t ≠ [])).map String.mk

/-- The aggregate target's dependency list: the tokens after the target
token on the first `MAIN`-prefixed line of the document. -/
def aggDeps (wf : Workflow) : List String :=
  match wf.lines.find? isMainLine with
  | some l => (lineTokens l).drop 1
  | none => []

/-- All secondary-declaration lines of the document, in order. -/
def secLines (wf : Workflow) : List String := wf.lines.filter isSecLine

/-- Is this line a rule header: nonblank and not a recipe line (recipe
lines start with a tab)? -/
def isHeaderLine (l : String) : Bool :=
  match l.data with
  | [] => false
  | c :: _ => c != '\t'

/-- The rule-header lines of a block of rule text. -/
def headerLinesOf (ls : List String) : List String :=
  ls.filter isHeaderLine

/-- The normalized output list `check_args_output` produces on a non-`other`
argument. -/
def outsOf : Arg → List String
  | .str s => if 0 < s.length then [normpath s] else []
  | .list l => l.map normpath
  | .other => []

/-- One recorded `append` call. -/
structure Call where
  cmds : Arg
  inputs : Arg
  outputs : Arg
  title : Option String
  secondary : Bool
  soft_inputs : Arg
  verbose : Bool

/-- Run a sequence of `append` calls, stopping at the first failure. -/
def appendAll : Workflow → List Call → Except Err Workflow
  | wf, [] => .ok wf
  | wf, c :: cs =>
    match wf.append c.cmds c.inputs c.outputs c.title c.secondary c.soft_inputs c.verbose with
    | .ok wf2 => appendAll wf2 cs
    | .error e => .error e

/-- The outputs a call contributes to the aggregate dependency list. -/
def aggContrib (c : Call) : List String :=
  if c.secondary then [] else outsOf c.outputs

/-- The secondary declaration line a secondary call writes. -/
def secLineOf (c : Call) : String := ".SECONDARY : " ++ pyJoinSp (outsOf c.outputs)

/-- The characters a dependency list contributes to the `MAIN` line: one
space before each token. -/
def depsChars (deps : List String) : List Char :=
  (deps.map (fun o => ' ' :: o.data)).flatten

/-- The `MAIN` line minus its trailing space: target token then the
space-prefixed dependency tokens. -/
def mainBase (deps : List String) : String := ⟨"MAIN:".data ++ depsChars deps⟩

/-- The `MAIN` aggregate line as stored, with its trailing space (fresh
documents start with `"MAIN: "`; every rewrite leaves one trailing space
before the newline). -/
def mainLine (deps : List String) : String := ⟨(mainBase deps).data ++ [' ']⟩

/-! ## Supporting lemmas -/

theorem string_data_append (a b : String) : (a ++ b).data = a.data ++ b.data := rfl

theorem string_eq_of_data {a b : String} (h : a.data = b.data) : a = b := by
  cases a; cases b; exact congrArg String.mk h

theorem goodTok_data_ne_nil {o : String} (h : goodTok o) : o.data ≠ [] := by
  intro hd
  exact h.1 (string_eq_of_data hd)

theorem depsChars_append (a b : List String) :
    depsChars (a ++ b) = depsChars a ++ depsChars b := by
  simp [depsChars]

theorem pyJoinSp_data_cons (x : String) (xs : List String) :
    (pyJoinSp (x :: xs)).data = x.data ++ depsChars xs := by
  induction xs generalizing x with
  | nil => simp [pyJoinSp, depsChars]
  | cons y ys ih =>
    show (x ++ " " ++ pyJoinSp (y :: ys)).data = _
    simp only [string_data_append, ih, depsChars, List.map_cons, List.flatten_cons]
    simp

theorem rstripC_append_space (l : List Char) : rstripC (l ++ [' ']) = rstripC l := by
  simp [rstripC, List.reverse_append, List.dropWhile_cons, pyIsSpace]

theorem rstripC_of_rev_head {l : List Char} {c : Char} {r : List Char}
    (h : l.reverse = c :: r) (hc : pyIsSpace c = false) : rstripC l = l := by
  have h2 : l = (c :: r).reverse := by rw [← h, List.reverse_reverse]
  simp [rstripC, h, List.dropWhile_cons, hc, ← h2]

theorem rev_head_nonspace_of_goodTok {o : String} (h : goodTok o) :
    ∃ c r, o.data.reverse = c :: r ∧ pyIsSpace c = false := by
  cases hr : o.data.reverse with
  | nil =>
    have : o.data = [] := by
      have := congrArg List.reverse hr
      simpa using this
    exact absurd this (goodTok_data_ne_nil h)
  | cons c r =>
    refine ⟨c, r, rfl, h.2 c ?_⟩
    rw [← List.mem_reverse, hr]
    exact List.mem_cons_self _ _

theorem mainBase_data_append (deps outs : List String) :
    (mainBase (deps ++ outs)).data = (mainBase deps).data ++ depsChars outs := by
  simp [mainBase, depsChars_append]

theorem mainBase_rev_head {deps : List String} (h : ∀ o ∈ deps, goodTok o) :
    ∃ c r, (mainBase deps).data.reverse = c :: r ∧ pyIsSpace c = false := by
  induction deps using List.reverseRecOn with
  | nil => exact ⟨':', ['N', 'I', 'A', 'M'], by decide, by decide⟩
  | append_singleton ds o ih =>
    have ho : goodTok o := h o (by simp)
    obtain ⟨c, r, hr, hc⟩ := rev_head_nonspace_of_goodTok ho
    refine ⟨c, r ++ ' ' :: (mainBase ds).data.reverse, ?_, hc⟩
    rw [mainBase_data_append]
    simp only [depsChars, List.map_cons, List.map_nil, List.flatten_cons, List.flatten_nil,
      List.append_nil, List.reverse_append, List.reverse_cons, hr]
    simp

theorem pyRstrip_mainLine {deps : List String} (h : ∀ o ∈ deps, goodTok o) :
    pyRstrip (mainLine deps) = mainBase deps := by
  obtain ⟨c, r, hr, hc⟩ := mainBase_rev_head h
  apply string_eq_of_data
  show rstripC ((mainBase deps).data ++ [' ']) = (mainBase deps).data
  rw [rstripC_append_space, rstripC_of_rev_head hr hc]

theorem extendMain_mainLine {deps : List String} (outs : List String)
    (h : ∀ o ∈ deps, goodTok o) :
    extendMain outs (mainLine deps) = mainLine (deps ++ outs) := by
  apply string_eq_of_data
  show (pyJoinSp (pyRstrip (mainLine deps) :: outs) ++ " ").data = _
  rw [pyRstrip_mainLine h]
  show (pyJoinSp (mainBase deps :: outs)).data ++ [' '] = (mainBase (deps ++ outs)).data ++ [' ']
  rw [pyJoinSp_data_cons, mainBase_data_append]

theorem mainLine_take4 (deps : List String) : (mainLine deps).data.take 4 = mainTag := rfl

theorem isMainLine_mainLine (deps : List String) : isMainLine (mainLine deps) = true := rfl

theorem splitSep_ne_nil (sep : Char) (l : List Char) : splitSep sep l ≠ [] := by
  induction l with
  | nil => simp [splitSep]
  | cons c cs ih =>
    simp only [splitSep]
    cases h : splitSep sep cs with
    | nil => exact absurd h ih
    | cons r rs =>
      by_cases hc : c = sep <;> simp [hc]

theorem splitSep_cons_sep (sep : Char) (cs : List Char) :
    splitSep sep (sep :: cs) = [] :: splitSep sep cs := by
  simp only [splitSep]
  cases h : splitSep sep cs with
  | nil => exact absurd h (splitSep_ne_nil sep cs)
  | cons r rs => simp

theorem splitSep_cons_nonsep {sep c : Char} (hc : c ≠ sep) (cs : List Char) :
    ∃ r rs, splitSep sep cs = r :: rs ∧ splitSep sep (c :: cs) = (c :: r) :: rs := by
  cases h : splitSep sep cs with
  | nil => exact absurd h (splitSep_ne_nil sep cs)
  | cons r rs =>
    refine ⟨r, rs, rfl, ?_⟩
    simp only [splitSep, h]
    simp [hc]

theorem splitSep_nosep_append {sep : Char} {xs : List Char} (h : ∀ c ∈ xs, c ≠ sep)
    (ys : List Char) :
    ∃ r rs, splitSep sep ys = r :: rs ∧ splitSep sep (xs ++ ys) = (xs ++ r) :: rs := by
  induction xs with
  | nil =>
    cases hy : splitSep sep ys with
    | nil => exact absurd hy (splitSep_ne_nil sep ys)
    | cons r rs => exact ⟨r, rs, rfl, by simpa using hy⟩
  | cons x xs ih =>
    obtain ⟨r, rs, hy, hx⟩ := ih (fun c hc => h c (List.mem_cons_of_mem _ hc))
    obtain ⟨r2, rs2, hy2, hx2⟩ := splitSep_cons_nonsep (h x (List.mem_cons_self _ _)) (xs ++ ys)
    rw [hx] at hy2
    cases hy2
    exact ⟨r, rs, hy, by simpa using hx2⟩

theorem splitSep_depsChars {deps : List String} (h : ∀ o ∈ deps, goodTok o) :
    splitSep ' ' (depsChars deps ++ [' ']) = [] :: (deps.map String.data ++ [[]]) := by
  induction deps with
  | nil => rfl
  | cons d ds ih =>
    have hd : goodTok d := h d (List.mem_cons_self _ _)
    have hnos : ∀ c ∈ d.data, c ≠ ' ' := by
      intro c hc he
      have := hd.2 c hc
      rw [he] at this
      exact absurd this (by decide)
    have step : depsChars (d :: ds) ++ [' '] = ' ' :: (d.data ++ (depsChars ds ++ [' '])) := by
      simp [depsChars]
    rw [step, splitSep_cons_sep]
    obtain ⟨r, rs, hy, hx⟩ := splitSep_nosep_append hnos (depsChars ds ++ [' '])
    rw [ih (fun o ho => h o (List.mem_cons_of_mem _ ho))] at hy
    cases hy
    rw [hx]
    simp

theorem lineTokens_mainLine {deps : List String} (h : ∀ o ∈ deps, goodTok o) :
    lineTokens (mainLine deps) = "MAIN:" :: deps := by
  have hdata : (mainLine deps).data = "MAIN:".data ++ (depsChars deps ++ [' ']) := by
    show ("MAIN:".data ++ depsChars deps) ++ [' '] = _
    simp
  have hnos : ∀ c ∈ "MAIN:".data, c ≠ ' ' := by decide
  unfold lineTokens
  rw [hdata]
  obtain ⟨r, rs, hy, hx⟩ := splitSep_nosep_append hnos (depsChars deps ++ [' '])
  rw [splitSep_depsChars h] at hy
  cases hy
  rw [hx]
  have e1 : ("MAIN:".data ++ ([] : List Char)) = "MAIN:".data := by simp
  rw [e1, List.filter_cons_of_pos (by decide), List.filter_append]
  have hfil : List.filter (fun t => decide (t ≠ [])) (deps.map String.data)
      = deps.map String.data := by
    rw [List.filter_eq_self]
    intro a ha
    obtain ⟨o, ho, rfl⟩ := List.mem_map.mp ha
    simpa using goodTok_data_ne_nil (h o ho)
  rw [hfil]
  have hfil2 : List.filter (fun t => decide (t ≠ [])) [([] : List Char)] = [] := by decide
  rw [hfil2, List.append_nil, List.map_cons, List.map_map]
  exact congrArg (fun l => "MAIN:" :: l) (List.map_id deps)

theorem aggDeps_of_shape {wf : Workflow} {deps : List String} {T : List String}
    (hl : wf.lines = headerPrefix ++ mainLine deps :: T)
    (h : ∀ o ∈ deps, goodTok o) : aggDeps wf = deps := by
  unfold aggDeps
  rw [hl, List.find?_append]
  have hnone : headerPrefix.find? isMainLine = none := by decide
  rw [hnone, List.find?_cons_of_pos _ (isMainLine_mainLine deps)]
  simp [lineTokens_mainLine h]

theorem check_args_output_eq {a : Arg} (ha : a ≠ Arg.other) :
    check_args_output a = .ok (outsOf a) := by
  cases a with
  | str s =>
    by_cases hs : 0 < s.length <;> simp [check_args_output, outsOf, hs]
  | list l => rfl
  | other => exact absurd rfl ha

theorem appendCore_ok_elim {lines : List String} {nv? : Option Bool} {cmds inputs outputs : Arg}
    {title : Option String} {secondary : Bool} {soft_inputs : Arg} {verbose : Bool}
    {wf' : Workflow}
    (h : appendCore lines nv? cmds inputs outputs title secondary soft_inputs verbose
      = .ok wf') :
    ∃ outs ins soft cs nv,
      check_args_output outputs = .ok outs ∧
      check_args_inout inputs = .ok ins ∧
      check_args_inout soft_inputs = .ok soft ∧
      nv? = some nv ∧
      ¬ (nv = false ∧ outs = []) ∧
      check_args_cmd cmds = .ok cs ∧
      wf' = (if secondary then
          ⟨(lines ++ ruleBlockLines nv outs ins soft title cs verbose)
              ++ ["", ".SECONDARY : " ++ pyJoinSp outs], some nv,
            ((lines ++ ruleBlockLines nv outs ins soft title cs verbose)
              ++ ["", ".SECONDARY : " ++ pyJoinSp outs]).length⟩
        else
          ⟨(lines ++ ruleBlockLines nv outs ins soft title cs verbose).map
              (fun l => if l.data.take 4 = mainTag then extendMain outs l else l), some nv,
            ((lines ++ ruleBlockLines nv outs ins soft title cs verbose).map
              (fun l => if l.data.take 4 = mainTag then extendMain outs l else l)).length⟩) := by
  unfold appendCore at h
  cases ho : check_args_output outputs with
  | error e => rw [ho] at h; exact absurd h (by simp)
  | ok outs =>
  rw [ho] at h
  cases hi : check_args_inout inputs with
  | error e => rw [hi] at h; exact absurd h (by simp)
  | ok ins =>
  rw [hi] at h
  cases hs : check_args_inout soft_inputs with
  | error e => rw [hs] at h; exact absurd h (by simp)
  | ok soft =>
  rw [hs] at h
  cases nv? with
  | none => exact absurd h (by simp)
  | some nv =>
  have h2 : appendWrite lines nv outs ins soft title secondary cmds verbose = .ok wf' := h
  unfold appendWrite at h2
  by_cases hg : nv = false ∧ outs = []
  · rw [if_pos hg] at h2
    exact absurd h2 (by simp)
  · rw [if_neg hg] at h2
    cases hc : check_args_cmd cmds with
    | error e => rw [hc] at h2; exact absurd h2 (by simp)
    | ok cs =>
    rw [hc] at h2
    refine ⟨outs, ins, soft, cs, nv, rfl, rfl, rfl, rfl, hg, rfl, ?_⟩
    cases secondary with
    | true => exact ((Except.ok.injEq _ _).mp h2).symm
    | false => exact ((Except.ok.injEq _ _).mp h2).symm

theorem headerPrefix_map_ext (outs : List String) :
    headerPrefix.map (fun l => if l.data.take 4 = mainTag then extendMain outs l else l)
      = headerPrefix := by
  have hrw : ∀ (l : String), l.data.take 4 ≠ mainTag →
      (if l.data.take 4 = mainTag then extendMain outs l else l) = l := fun _ h => if_neg h
  simp only [headerPrefix, List.map_cons, List.map_nil]
  rw [hrw ".PHONY: MAIN" (by decide), hrw "" (by decide), hrw "CMDCOL := \x1b[32m" (by decide),
    hrw "DEFCOL := \x1b[0m" (by decide)]

theorem outs_eq_outsOf {a : Arg} {outs : List String}
    (ho : check_args_output a = .ok outs) : outs = outsOf a := by
  have hne : a ≠ Arg.other := by
    intro he
    rw [he] at ho
    exact absurd ho (by simp [check_args_output])
  rw [check_args_output_eq hne] at ho
  exact ((Except.ok.injEq _ _).mp ho).symm

theorem append_ok_shape {deps T : List String} {nv? : Option Bool} {c : Call} {wf' : Workflow}
    (h : appendCore (headerPrefix ++ mainLine deps :: T) nv? c.cmds c.inputs c.outputs
      c.title c.secondary c.soft_inputs c.verbose = .ok wf')
    (hdeps : ∀ o ∈ deps, goodTok o) :
    ∃ T', wf'.lines = headerPrefix ++ mainLine (deps ++ aggContrib c) :: T' := by
  obtain ⟨outs, ins, soft, cs, nv, ho, hi, hs, hnv, hg, hc, hwf⟩ := appendCore_ok_elim h
  have houts : outs = outsOf c.outputs := outs_eq_outsOf ho
  cases hsec : c.secondary with
  | true =>
    rw [hsec, if_pos rfl] at hwf
    refine ⟨T ++ ruleBlockLines nv outs ins soft c.title cs c.verbose
      ++ ["", ".SECONDARY : " ++ pyJoinSp outs], ?_⟩
    rw [hwf]
    show (headerPrefix ++ mainLine deps :: T) ++ _ ++ _ = _
    simp only [aggContrib, hsec, if_pos rfl, List.append_nil]
    simp
  | false =>
    rw [hsec] at hwf
    simp only [Bool.false_eq_true, if_false] at hwf
    refine ⟨(T ++ ruleBlockLines nv outs ins soft c.title cs c.verbose).map
      (fun l => if l.data.take 4 = mainTag then extendMain outs l else l), ?_⟩
    rw [hwf]
    simp only [List.append_assoc, List.cons_append, List.map_append, List.map_cons,
      headerPrefix_map_ext, if_pos (mainLine_take4 deps), extendMain_mainLine outs hdeps]
    simp only [aggContrib, hsec, Bool.false_eq_true, if_false, houts]

theorem appendAll_shape {calls : List Call} :
    ∀ {wf : Workflow} {deps T : List String} {wf' : Workflow},
    wf.lines = headerPrefix ++ mainLine deps :: T →
    (∀ o ∈ deps, goodTok o) →
    (∀ c ∈ calls, ∀ o ∈ outsOf c.outputs, goodTok o) →
    appendAll wf calls = .ok wf' →
    ∃ T', wf'.lines = headerPrefix ++ mainLine (deps ++ (calls.map aggContrib).flatten) :: T' := by
  induction calls with
  | nil =>
    intro wf deps T wf' hl hdeps _ happ
    have : wf = wf' := (Except.ok.injEq _ _).mp happ
    exact ⟨T, by simpa [← this] using hl⟩
  | cons c cs ih =>
    intro wf deps T wf' hl hdeps hcalls happ
    unfold appendAll at happ
    cases ha : wf.append c.cmds c.inputs c.outputs c.title c.secondary c.soft_inputs c.verbose with
    | error e =>
      rw [ha] at happ
      have h2 : (Except.error e : Except Err Workflow) = .ok wf' := happ
      exact absurd h2 (by simp)
    | ok wf2 =>
      rw [ha] at happ
      have happ2 : appendAll wf2 cs = .ok wf' := happ
      have ha2 : appendCore (headerPrefix ++ mainLine deps :: T) wf.new_version c.cmds c.inputs
          c.outputs c.title c.secondary c.soft_inputs c.verbose = .ok wf2 := by
        rw [← hl]
        exact ha
      have hgood : ∀ o ∈ aggContrib c, goodTok o := by
        intro o hoo
        unfold aggContrib at hoo
        by_cases hsec : c.secondary
        · rw [if_pos hsec] at hoo
          exact absurd hoo (List.not_mem_nil o)
        · rw [if_neg hsec] at hoo
          exact hcalls c (List.mem_cons_self _ _) o hoo
      obtain ⟨T2, hl2⟩ := append_ok_shape ha2 hdeps
      have hdeps2 : ∀ o ∈ deps ++ aggContrib c, goodTok o := by
        intro o hoo
        rcases List.mem_append.mp hoo with hm | hm
        · exact hdeps o hm
        · exact hgood o hm
      obtain ⟨T', hfin⟩ := ih hl2 hdeps2 (fun c2 h2 => hcalls c2 (List.mem_cons_of_mem _ h2)) happ2
      exact ⟨T', by simpa [List.append_assoc] using hfin⟩

theorem appendAll_append (b : List Call) {a : List Call} :
    ∀ (wf : Workflow), appendAll wf (a ++ b) =
      match appendAll wf a with
      | .ok w => appendAll w b
      | .error e => .error e := by
  induction a with
  | nil => intro wf; rfl
  | cons c cs ih =>
    intro wf
    have hL : appendAll wf ((c :: cs) ++ b) =
        match wf.append c.cmds c.inputs c.outputs c.title c.secondary c.soft_inputs c.verbose with
        | .ok wf2 => appendAll wf2 (cs ++ b)
        | .error e => .error e := rfl
    have hR : appendAll wf (c :: cs) =
        match wf.append c.cmds c.inputs c.outputs c.title c.secondary c.soft_inputs c.verbose with
        | .ok wf2 => appendAll wf2 cs
        | .error e => .error e := rfl
    rw [hL, hR]
    cases wf.append c.cmds c.inputs c.outputs c.title c.secondary c.soft_inputs c.verbose with
    | ok wf2 => exact ih wf2
    | error e => rfl

theorem take10_ne_secTag_of_clean {o : String} (h : cleanTok o) (r : List Char) :
    (o.data ++ ' ' :: r).take 10 ≠ secTag := by
  by_cases hlen : 10 ≤ o.data.length
  · rw [List.take_append_of_le_length hlen]
    exact h.2
  · intro he
    push_neg at hlen
    have hsp : (' ' : Char) ∈ (o.data ++ ' ' :: r).take 10 := by
      rw [List.take_append_eq_append_take]
      have h1 : o.data.take 10 = o.data := List.take_of_length_le (Nat.le_of_lt hlen)
      have h2 : 1 ≤ 10 - o.data.length := by omega
      refine List.mem_append.mpr (Or.inr ?_)
      rcases hn : 10 - o.data.length with _ | n
      · omega
      · simp [List.take_cons]
    rw [he] at hsp
    exact absurd hsp (by decide)

theorem isSecLine_false_of_clean_head {o : String} (h : cleanTok o) (s : String)
    {r : List Char} (hs : s.data = ' ' :: r) : isSecLine (o ++ s) = false := by
  unfold isSecLine
  rw [string_data_append, hs]
  exact beq_eq_false_iff_ne.mpr (take10_ne_secTag_of_clean h r)

theorem isSecLine_false_of_head {s : String} {c : Char} {l : List Char}
    (hd : s.data = c :: l) (hc : c ≠ '.') : isSecLine s = false := by
  unfold isSecLine
  rw [hd]
  refine beq_eq_false_iff_ne.mpr ?_
  intro he
  have : c = '.' := by
    have h4 := congrArg (fun t => t.headD ' ') he
    simpa [secTag] using h4
  exact hc this

theorem rstripC_cons_head {c : Char} (hc : pyIsSpace c = false) (l : List Char) :
    ∃ t, rstripC (c :: l) = c :: t := by
  unfold rstripC
  rw [show (c :: l).reverse = l.reverse ++ [c] from List.reverse_cons c l,
    List.dropWhile_append]
  by_cases hemp : (l.reverse.dropWhile pyIsSpace).isEmpty
  · rw [if_pos hemp]
    exact ⟨[], by simp [List.dropWhile_cons, hc]⟩
  · rw [if_neg hemp]
    exact ⟨(l.reverse.dropWhile pyIsSpace).reverse, by simp⟩

theorem isMainTag_head {l : String} (hm : l.data.take 4 = mainTag) :
    ∃ rest, l.data = 'M' :: rest := by
  cases hld : l.data with
  | nil => rw [hld] at hm; exact absurd hm (by decide)
  | cons c rest =>
    rw [hld] at hm
    simp only [List.take_succ_cons, mainTag] at hm
    injection hm with h1 _
    exact ⟨rest, by rw [h1]⟩

theorem isSecLine_extendMain_of_mainTag {l : String} (outs : List String)
    (hm : l.data.take 4 = mainTag) : isSecLine (extendMain outs l) = false := by
  obtain ⟨rest, hrest⟩ := isMainTag_head hm
  obtain ⟨t, ht⟩ := rstripC_cons_head (c := 'M') (by decide) rest
  have hdata : (extendMain outs l).data = 'M' :: (t ++ depsChars outs ++ [' ']) := by
    show (pyJoinSp (pyRstrip l :: outs) ++ " ").data = _
    rw [string_data_append, pyJoinSp_data_cons]
    show (pyRstrip l).data ++ depsChars outs ++ [' '] = _
    show rstripC l.data ++ depsChars outs ++ [' '] = _
    rw [hrest, ht]
    simp
  exact isSecLine_false_of_head hdata (by decide)

theorem isSecLine_append_left {s : String} {c : Char} {r : List Char}
    (hs : s.data = c :: r) (hc : c ≠ '.') (t : String) : isSecLine (s ++ t) = false :=
  isSecLine_false_of_head (by rw [string_data_append, hs]; rfl) hc

theorem secFilter_cmdLines (vb : Bool) (c : String) :
    (cmdLines vb c).filter isSecLine = [] := by
  unfold cmdLines
  have e1 : ∀ w : String,
      isSecLine ("\t-@echo \x27${CMDCOL}+" ++ w ++ "${DEFCOL}\x27") = false := fun w =>
    isSecLine_append_left (s := "\t-@echo \x27${CMDCOL}+" ++ w) (c := '\t')
      (r := "-@echo \x27${CMDCOL}+".data ++ w.data) rfl (by decide) _
  have e2 : ∀ w : String, isSecLine ("\t@" ++ w) = false := fun w =>
    isSecLine_false_of_head (s := "\t@" ++ w) (c := '\t') (l := '@' :: w.data) rfl (by decide)
  simp only [List.filter_cons, e1, e2, List.filter_nil, Bool.false_eq_true, if_false]

theorem secFilter_cmdBlock (vb : Bool) (cs : List String) :
    ((cs.map (cmdLines vb)).flatten).filter isSecLine = [] := by
  induction cs with
  | nil => rfl
  | cons c cs ih =>
    simp only [List.map_cons, List.flatten_cons, List.filter_append, ih, List.append_nil,
      secFilter_cmdLines]

theorem secFilter_titleLines (t : Option String) :
    (titleLines t).filter isSecLine = [] := by
  cases t with
  | none => rfl
  | some s =>
    have e1 : isSecLine ("\t@+printf \x27" ++ escape_char s ++ "\\n\x27") = false :=
      isSecLine_append_left (s := "\t@+printf \x27" ++ escape_char s) (c := '\t')
        (r := "@+printf \x27".data ++ (escape_char s).data) rfl (by decide) _
    simp only [titleLines, List.filter_cons, e1, Bool.false_eq_true, if_false, List.filter_nil]

theorem isSecLine_clean_headed {o : String} (h : cleanTok o) (sep rest : String)
    {r : List Char} (hsep : sep.data = ' ' :: r) :
    isSecLine (o ++ sep ++ rest) = false := by
  have hd : ((o ++ sep) ++ rest).data = o.data ++ (' ' :: (r ++ rest.data)) := by
    rw [string_data_append, string_data_append, hsep]
    simp
  unfold isSecLine
  rw [hd]
  exact beq_eq_false_iff_ne.mpr (take10_ne_secTag_of_clean h _)

theorem secFilter_fwdRules {outs : List String} (h : ∀ o ∈ outs, cleanTok o) :
    (fwdRules outs).filter isSecLine = [] := by
  induction outs with
  | nil => rfl
  | cons o0 rest ih =>
    cases rest with
    | nil => rfl
    | cons o1 rest2 =>
      show (("" :: (o1 ++ " : " ++ o0) :: ("\t@" ++ cmd_add_output) :: [])
        ++ fwdRules (o1 :: rest2)).filter isSecLine = []
      rw [List.filter_append]
      have e0 : isSecLine "" = false := rfl
      have e1 : isSecLine (o1 ++ " : " ++ o0) = false :=
        isSecLine_clean_headed (h o1 (by simp)) " : " o0 rfl
      have e2 : isSecLine ("\t@" ++ cmd_add_output) = false :=
        isSecLine_false_of_head (c := '\t') (l := '@' :: cmd_add_output.data) rfl (by decide)
      rw [List.filter_cons_of_neg (by simp [e0]), List.filter_cons_of_neg (by simp [e1]),
        List.filter_cons_of_neg (by simp [e2]), List.filter_nil]
      have ih2 := ih (fun o ho => h o (List.mem_cons_of_mem _ ho))
      simpa using ih2

theorem isSecLine_grouped_header {outs : List String} (h : ∀ o ∈ outs, cleanTok o)
    (tail : String) {r : List Char} (htail : tail.data = ' ' :: r) :
    isSecLine (pyJoinSp outs ++ tail) = false := by
  cases outs with
  | nil =>
    refine isSecLine_false_of_head (c := ' ') (l := r) ?_ (by decide)
    rw [string_data_append]
    show (pyJoinSp []).data ++ tail.data = _
    rw [htail]
    rfl
  | cons o rest =>
    cases rest with
    | nil =>
      have hdata : (pyJoinSp [o] ++ tail).data = o.data ++ (' ' :: r) := by
        rw [string_data_append, htail]
        rfl
      unfold isSecLine
      rw [hdata]
      exact beq_eq_false_iff_ne.mpr (take10_ne_secTag_of_clean (h o (by simp)) r)
    | cons o2 rest2 =>
      have hdata : (pyJoinSp (o :: o2 :: rest2) ++ tail).data
          = o.data ++ (' ' :: (o2.data ++ (depsChars rest2 ++ (' ' :: r)))) := by
        rw [string_data_append, pyJoinSp_data_cons, htail]
        simp [depsChars]
      unfold isSecLine
      rw [hdata]
      exact beq_eq_false_iff_ne.mpr (take10_ne_secTag_of_clean (h o (by simp)) _)

theorem secFilter_ruleHeader {nv : Bool} {outs : List String} (ins soft : String)
    (houts : ∀ o ∈ outs, cleanTok o) (hne : ¬ (nv = false ∧ outs = [])) :
    (ruleHeaderLines nv outs ins soft).filter isSecLine = [] := by
  unfold ruleHeaderLines
  cases nv with
  | true =>
    have e1 : isSecLine (pyJoinSp outs ++ " &: " ++ ins ++ " | " ++ soft) = false := by
      have := isSecLine_grouped_header houts (" &: " ++ ins ++ " | " ++ soft)
        (r := "&: ".data ++ ins.data ++ " | ".data ++ soft.data) (by simp [string_data_append])
      simpa [String.append_assoc] using this
    have e2 : isSecLine (pyJoinSp outs ++ " &: " ++ ins) = false := by
      have := isSecLine_grouped_header houts (" &: " ++ ins)
        (r := "&: ".data ++ ins.data) (by simp [string_data_append])
      simpa [String.append_assoc] using this
    rw [if_pos rfl]
    by_cases hs : 0 < soft.length
    · rw [if_pos hs, List.filter_cons_of_neg (by decide), List.filter_cons_of_neg (by simp [e1]),
        List.filter_nil]
    · rw [if_neg hs, List.filter_cons_of_neg (by decide), List.filter_cons_of_neg (by simp [e2]),
        List.filter_nil]
  | false =>
    have hoo : outs ≠ [] := fun he => hne ⟨rfl, he⟩
    cases outs with
    | nil => exact absurd rfl hoo
    | cons o rest =>
      have e1 : isSecLine (o ++ " : " ++ ins ++ " | " ++ soft) = false := by
        have := isSecLine_clean_headed (houts o (by simp)) " : " (ins ++ " | " ++ soft) rfl
        simpa [String.append_assoc] using this
      have e2 : isSecLine (o ++ " : " ++ ins) = false :=
        isSecLine_clean_headed (houts o (by simp)) " : " ins rfl
      rw [if_neg Bool.false_ne_true]
      by_cases hs : 0 < soft.length
      · rw [if_pos hs, List.filter_cons_of_neg (by decide),
          List.filter_cons_of_neg (by simp [e1]), List.filter_nil]
      · rw [if_neg hs, List.filter_cons_of_neg (by decide),
          List.filter_cons_of_neg (by simp [e2]), List.filter_nil]

theorem secFilter_ruleBlock {nv : Bool} {outs : List String} (ins soft : String)
    (title : Option String) (cs : List String) (vb : Bool)
    (houts : ∀ o ∈ outs, cleanTok o) (hne : ¬ (nv = false ∧ outs = [])) :
    (ruleBlockLines nv outs ins soft title cs vb).filter isSecLine = [] := by
  unfold ruleBlockLines
  rw [List.filter_append, List.filter_append, List.filter_append]
  rw [secFilter_ruleHeader ins soft houts hne, secFilter_titleLines, secFilter_cmdBlock]
  cases nv with
  | true => rfl
  | false => simp [secFilter_fwdRules houts]

theorem secFilter_map_ext (outs : List String) (T : List String) :
    (T.map (fun l => if l.data.take 4 = mainTag then extendMain outs l else l)).filter isSecLine
      = T.filter isSecLine := by
  induction T with
  | nil => rfl
  | cons l T ih =>
    simp only [List.map_cons, List.filter_cons]
    by_cases hm : l.data.take 4 = mainTag
    · rw [if_pos hm]
      obtain ⟨rest, hrest⟩ := isMainTag_head hm
      rw [isSecLine_extendMain_of_mainTag outs hm,
        isSecLine_false_of_head hrest (by decide)]
      exact ih
    · rw [if_neg hm, ih]

theorem append_ok_full {deps T : List String} {nv? : Option Bool} {c : Call} {wf' : Workflow}
    (h : appendCore (headerPrefix ++ mainLine deps :: T) nv? c.cmds c.inputs c.outputs
      c.title c.secondary c.soft_inputs c.verbose = .ok wf')
    (hdeps : ∀ o ∈ deps, goodTok o)
    (houts : ∀ o ∈ outsOf c.outputs, cleanTok o) :
    ∃ T', wf'.lines = headerPrefix ++ mainLine (deps ++ aggContrib c) :: T' ∧
      T'.filter isSecLine = T.filter isSecLine ++
        (if c.secondary then [secLineOf c] else []) := by
  obtain ⟨outs, ins, soft, cs, nv, ho, hi, hs, hnv, hg, hc, hwf⟩ := appendCore_ok_elim h
  have houts2 : outs = outsOf c.outputs := outs_eq_outsOf ho
  have hclean : ∀ o ∈ outs, cleanTok o := by rw [houts2]; exact houts
  cases hsec : c.secondary with
  | true =>
    rw [hsec, if_pos rfl] at hwf
    refine ⟨T ++ ruleBlockLines nv outs ins soft c.title cs c.verbose
      ++ ["", ".SECONDARY : " ++ pyJoinSp outs], ?_, ?_⟩
    · rw [hwf]
      show (headerPrefix ++ mainLine deps :: T) ++ _ ++ _ = _
      simp only [aggContrib, hsec, if_pos rfl, List.append_nil]
      simp
    · rw [List.filter_append, List.filter_append,
        secFilter_ruleBlock ins soft c.title cs c.verbose hclean hg]
      have hsecline : isSecLine (".SECONDARY : " ++ pyJoinSp outs) = true := rfl
      rw [List.filter_cons_of_neg (by decide), List.filter_cons_of_pos hsecline,
        List.filter_nil]
      simp [secLineOf, houts2]
  | false =>
    rw [hsec] at hwf
    simp only [Bool.false_eq_true, if_false] at hwf
    refine ⟨(T ++ ruleBlockLines nv outs ins soft c.title cs c.verbose).map
      (fun l => if l.data.take 4 = mainTag then extendMain outs l else l), ?_, ?_⟩
    · rw [hwf]
      simp only [List.append_assoc, List.cons_append, List.map_append, List.map_cons,
        headerPrefix_map_ext, if_pos (mainLine_take4 deps), extendMain_mainLine outs hdeps]
      simp only [aggContrib, hsec, Bool.false_eq_true, if_false, houts2]
    · rw [secFilter_map_ext, List.filter_append,
        secFilter_ruleBlock ins soft c.title cs c.verbose hclean hg]
      simp

theorem appendAll_full {calls : List Call} :
    ∀ {wf : Workflow} {deps T : List String} {wf' : Workflow},
    wf.lines = headerPrefix ++ mainLine deps :: T →
    (∀ o ∈ deps, goodTok o) →
    (∀ c ∈ calls, ∀ o ∈ outsOf c.outputs, cleanTok o) →
    appendAll wf calls = .ok wf' →
    ∃ T', wf'.lines = headerPrefix ++ mainLine (deps ++ (calls.map aggContrib).flatten) :: T' ∧
      T'.filter isSecLine = T.filter isSecLine ++
        (calls.filter (fun c => c.secondary)).map secLineOf := by
  induction calls with
  | nil =>
    intro wf deps T wf' hl hdeps _ happ
    have : wf = wf' := (Except.ok.injEq _ _).mp happ
    exact ⟨T, by simpa [← this] using hl, by simp⟩
  | cons c cs ih =>
    intro wf deps T wf' hl hdeps hcalls happ
    unfold appendAll at happ
    cases ha : wf.append c.cmds c.inputs c.outputs c.title c.secondary c.soft_inputs c.verbose with
    | error e =>
      rw [ha] at happ
      have h2 : (Except.error e : Except Err Workflow) = .ok wf' := happ
      exact absurd h2 (by simp)
    | ok wf2 =>
      rw [ha] at happ
      have happ2 : appendAll wf2 cs = .ok wf' := happ
      have ha2 : appendCore (headerPrefix ++ mainLine deps :: T) wf.new_version c.cmds c.inputs
          c.outputs c.title c.secondary c.soft_inputs c.verbose = .ok wf2 := by
        rw [← hl]
        exact ha
      have hgood : ∀ o ∈ aggContrib c, goodTok o := by
        intro o hoo
        unfold aggContrib at hoo
        by_cases hsec : c.secondary
        · rw [if_pos hsec] at hoo
          exact absurd hoo (List.not_mem_nil o)
        · rw [if_neg hsec] at hoo
          exact (hcalls c (List.mem_cons_self _ _) o hoo).1
      obtain ⟨T2, hl2, hf2⟩ := append_ok_full ha2 hdeps (hcalls c (List.mem_cons_self _ _))
      have hdeps2 : ∀ o ∈ deps ++ aggContrib c, goodTok o := by
        intro o hoo
        rcases List.mem_append.mp hoo with hm | hm
        · exact hdeps o hm
        · exact hgood o hm
      obtain ⟨T', hfin, hfil⟩ := ih hl2 hdeps2
        (fun c2 h2 => hcalls c2 (List.mem_cons_of_mem _ h2)) happ2
      refine ⟨T', by simpa [List.append_assoc] using hfin, ?_⟩
      rw [hfil, hf2]
      cases hsec : c.secondary with
      | true => simp [List.filter_cons, hsec]
      | false => simp [List.filter_cons, hsec]

theorem head_nonspace_of_goodTok {o : String} (h : goodTok o) :
    ∃ c t, o.data = c :: t ∧ pyIsSpace c = false := by
  cases hd : o.data with
  | nil => exact absurd hd (goodTok_data_ne_nil h)
  | cons c t => exact ⟨c, t, rfl, h.2 c (by rw [hd]; exact List.mem_cons_self _ _)⟩

theorem isHeaderLine_of_data {s : String} {c : Char} {r : List Char}
    (hd : s.data = c :: r) : isHeaderLine s = (c != '\t') := by
  unfold isHeaderLine
  rw [hd]

theorem isHeaderLine_goodTok_append {o : String} (h : goodTok o) (t : String) :
    isHeaderLine (o ++ t) = true := by
  obtain ⟨c, r, hd, hc⟩ := head_nonspace_of_goodTok h
  have : (o ++ t).data = c :: (r ++ t.data) := by rw [string_data_append, hd]; rfl
  rw [isHeaderLine_of_data this]
  simp only [bne_iff_ne, ne_eq, decide_eq_true_eq]
  intro he
  rw [he] at hc
  exact absurd hc (by decide)

theorem headerFilter_cmdLines (vb : Bool) (c : String) :
    (cmdLines vb c).filter isHeaderLine = [] := by
  unfold cmdLines
  have e1 : ∀ w : String,
      isHeaderLine ("\t-@echo \x27${CMDCOL}+" ++ w ++ "${DEFCOL}\x27") = false := fun w => by
    rw [isHeaderLine_of_data (c := '\t')
      (r := ("-@echo \x27${CMDCOL}+".data ++ w.data) ++ "${DEFCOL}\x27".data) (by
        rw [string_data_append, string_data_append]; rfl)]
    rfl
  have e2 : ∀ w : String, isHeaderLine ("\t@" ++ w) = false := fun w => by
    rw [isHeaderLine_of_data (s := "\t@" ++ w) (c := '\t') (r := '@' :: w.data) rfl]
    rfl
  simp only [List.filter_cons, e1, e2, Bool.false_eq_true, if_false, List.filter_nil]

theorem headerFilter_cmdBlock (vb : Bool) (cs : List String) :
    ((cs.map (cmdLines vb)).flatten).filter isHeaderLine = [] := by
  induction cs with
  | nil => rfl
  | cons c cs ih =>
    simp only [List.map_cons, List.flatten_cons, List.filter_append, ih, List.append_nil,
      headerFilter_cmdLines]

theorem headerFilter_titleLines (t : Option String) :
    (titleLines t).filter isHeaderLine = [] := by
  cases t with
  | none => rfl
  | some s =>
    have e1 : isHeaderLine ("\t@+printf \x27" ++ escape_char s ++ "\\n\x27") = false := by
      rw [isHeaderLine_of_data (c := '\t')
        (r := ("@+printf \x27".data ++ (escape_char s).data) ++ "\\n\x27".data) (by
          rw [string_data_append, string_data_append]; rfl)]
      rfl
    simp only [titleLines, List.filter_cons, e1, Bool.false_eq_true, if_false, List.filter_nil]

theorem headerFilter_fwdRules {outs : List String} (h : ∀ o ∈ outs, goodTok o) :
    (fwdRules outs).filter isHeaderLine
      = (outs.tail.zip outs).map (fun p => p.1 ++ " : " ++ p.2) := by
  induction outs with
  | nil => rfl
  | cons o0 rest ih =>
    cases rest with
    | nil => rfl
    | cons o1 rest2 =>
      show (("" :: (o1 ++ " : " ++ o0) :: ("\t@" ++ cmd_add_output) :: [])
        ++ fwdRules (o1 :: rest2)).filter isHeaderLine = _
      rw [List.filter_append]
      have e1 : isHeaderLine (o1 ++ " : " ++ o0) = true := by
        have := isHeaderLine_goodTok_append (h o1 (by simp)) (" : " ++ o0)
        simpa [String.append_assoc] using this
      have e2 : isHeaderLine ("\t@" ++ cmd_add_output) = false := by
        rw [isHeaderLine_of_data (s := "\t@" ++ cmd_add_output) (c := '\t')
          (r := '@' :: cmd_add_output.data) rfl]
        rfl
      rw [List.filter_cons_of_neg (by decide), List.filter_cons_of_pos e1,
        List.filter_cons_of_neg (by simp [e2]), List.filter_nil]
      rw [ih (fun o ho => h o (List.mem_cons_of_mem _ ho))]
      rfl

theorem isHeaderLine_joinSp {o : String} (ho : goodTok o) (rest : List String) (t : String) :
    isHeaderLine (pyJoinSp (o :: rest) ++ t) = true := by
  obtain ⟨c, r, hd, hc⟩ := head_nonspace_of_goodTok ho
  have hdata : (pyJoinSp (o :: rest) ++ t).data = c :: (r ++ depsChars rest ++ t.data) := by
    rw [string_data_append, pyJoinSp_data_cons, hd]
    simp
  rw [isHeaderLine_of_data hdata]
  simp only [bne_iff_ne, ne_eq, decide_eq_true_eq]
  intro he
  rw [he] at hc
  exact absurd hc (by decide)

theorem aggContrib_flatten_eq (calls : List Call) :
    (calls.map aggContrib).flatten
      = ((calls.filter (fun c => ¬ c.secondary)).map (fun c => outsOf c.outputs)).flatten := by
  induction calls with
  | nil => rfl
  | cons c cs ih =>
    by_cases hsec : c.secondary = true
    · simp only [List.map_cons, List.flatten_cons, aggContrib, hsec, if_pos rfl,
        List.nil_append, List.filter_cons]
      rw [ih]
      simp [hsec]
    · have hs2 : c.secondary = false := by simpa using hsec
      simp only [List.map_cons, List.flatten_cons, aggContrib, hs2, Bool.false_eq_true, if_false,
        List.filter_cons]
      rw [ih]
      simp [hs2]

theorem isSecLine_mainLine (deps : List String) : isSecLine (mainLine deps) = false := by
  refine isSecLine_false_of_head (c := 'M') (l := ('A' :: 'I' :: 'N' :: ':' :: [])
    ++ depsChars deps ++ [' ']) ?_ (by decide)
  show ("MAIN:".data ++ depsChars deps) ++ [' '] = _
  simp

theorem secLines_of_shape {wf : Workflow} {deps T : List String}
    (hl : wf.lines = headerPrefix ++ mainLine deps :: T) :
    secLines wf = T.filter isSecLine := by
  unfold secLines
  rw [hl, List.filter_append, List.filter_cons_of_neg (by simp [isSecLine_mainLine])]
  have : headerPrefix.filter isSecLine = [] := by decide
  rw [this, List.nil_append]

theorem initFresh_none_shape (cap : Bool) :
    (Workflow.initFresh none cap).lines
      = headerPrefix ++ mainLine [] :: ("" :: listTarget) := by
  show headerPrefix ++ mainHeader none ++ listTarget
    = headerPrefix ++ mainLine [] :: ("" :: listTarget)
  decide

theorem goodTok_of_aggContrib {calls : List Call}
    (hgood : ∀ c ∈ calls, ∀ o ∈ outsOf c.outputs, goodTok o) :
    ∀ o ∈ (calls.map aggContrib).flatten, goodTok o := by
  intro o ho
  obtain ⟨l, hl, hol⟩ := List.mem_flatten.mp ho
  obtain ⟨c, hc, rfl⟩ := List.mem_map.mp hl
  unfold aggContrib at hol
  by_cases hs : c.secondary
  · rw [if_pos hs] at hol
    exact absurd hol (List.not_mem_nil o)
  · rw [if_neg hs] at hol
    exact hgood c hc o hol

theorem aggDeps_appendAll_initFresh {cap : Bool} {calls : List Call} {wf : Workflow}
    (hgood : ∀ c ∈ calls, ∀ o ∈ outsOf c.outputs, goodTok o)
    (happ : appendAll (Workflow.initFresh none cap) calls = .ok wf) :
    aggDeps wf = (calls.map aggContrib).flatten := by
  obtain ⟨T', hshape⟩ := appendAll_shape (initFresh_none_shape cap) (by simp) hgood happ
  have h := aggDeps_of_shape hshape (by simpa using goodTok_of_aggContrib hgood)
  simpa using h

/-! ## Claim theorems -/

/-- C1: reopening an existing path without overwrite emits nothing (no
header, no phony declaration, no capability probe result is stored), but —
against the claim and the repository's own test flow 3 — every subsequent
`append` on the reopened document fails: the continuation branch of
`__init__` never assigns `self.new_version`, so `append` raises
`AttributeError` at `if self.new_version:` instead of succeeding.  Shown
here on test flow 3's own call, for any pre-existing content. -/
theorem c1_continuation_append_raises (L : List String) :
    (Workflow.initContinue L).lines = L ∧
    ∀ (t : Option String) (sec vb : Bool),
      (Workflow.initContinue L).append (.str "echo bar > bar3") (.str "") (.str "bar3")
        t sec (.list []) vb = .error .attributeError :=
  ⟨rfl, fun _ _ _ => rfl⟩

/-- C2 counterexample: when the external tool is not invocable, the
capability probe does not return `false` — it raises (`FileNotFoundError`
from `Popen` propagates, the source has no exception handling), refuting
"the capability probe never raises an error to its caller". -/
theorem c2_probe_raises_counterexample :
    newVersionFlag ProbeOutcome.notInvocable = .error ProbeErr.fileNotFound ∧
    newVersionFlag ProbeOutcome.notInvocable ≠ .ok false :=
  ⟨rfl, fun h => Except.noConfusion h⟩

/-- C2 (amended): on a successful parse the probe yields `true` exactly when
the parsed version strictly exceeds 4.3; but on failure — tool not
invocable, or no parseable version token — the exception propagates to the
caller instead of degrading to `false`. -/
theorem c2_probe_behavior :
    (newVersionFlag ProbeOutcome.notInvocable = .error ProbeErr.fileNotFound) ∧
    (∀ s, parseVersion (extractToken s) = none →
      newVersionFlag (.output s) = .error ProbeErr.invalidVersion) ∧
    (∀ s v, parseVersion (extractToken s) = some v →
      newVersionFlag (.output s) = .ok (versionLt [4, 3] v)) := by
  refine ⟨rfl, ?_, ?_⟩
  · intro s hp
    have h2 : get_make_version (.output s) = .error .invalidVersion := by
      show (match parseVersion (extractToken s) with
            | some v => (.ok v : Except ProbeErr (List Nat))
            | none => .error .invalidVersion) = _
      rw [hp]
    unfold newVersionFlag
    rw [h2]
    rfl
  · intro s v hp
    have h2 : get_make_version (.output s) = .ok v := by
      show (match parseVersion (extractToken s) with
            | some v => (.ok v : Except ProbeErr (List Nat))
            | none => .error .invalidVersion) = _
      rw [hp]
    unfold newVersionFlag
    rw [h2]
    rfl

/-- C2 witness: a modern make output probes to `true`; output with no
version token raises `InvalidVersion`. -/
theorem c2_probe_behavior_witness :
    newVersionFlag (.output "GNU Make 4.4.1\nBuilt for x86_64-pc-linux-gnu") = .ok true ∧
    newVersionFlag (.output "not a make banner\nmore text") =
      .error ProbeErr.invalidVersion := by
  constructor
  · exact c2_probe_behavior.2.2 "GNU Make 4.4.1\nBuilt for x86_64-pc-linux-gnu" [4, 4, 1] rfl
  · exact c2_probe_behavior.2.1 "not a make banner\nmore text" rfl

/-- C3 counterexample: two runs of the same workflow whose external
processes exit with different statuses (0 versus 2) give the caller the
identical result (`None`): the exit status is discarded by `run`, not
returned or propagated, refuting "the exit status of the external build
process is the observable result of the call". -/
theorem c3_run_result_counterexample :
    (Workflow.run (fun _ => 0) "wf.mk" (.int 1) false false true false false none).2
      = (Workflow.run (fun _ => 2) "wf.mk" (.int 1) false false true false false none).2 ∧
    (Workflow.run (fun _ => 0) "wf.mk" (.int 1) false false true false false none).1
      ≠ (Workflow.run (fun _ => 2) "wf.mk" (.int 1) false false true false false none).1 :=
  ⟨rfl, by decide⟩

/-- C3 (amended): `run` with an integer `njobs` invokes the external tool
exactly once with the translated command line — no retry, no
interpretation — and returns `None` to its caller; the process outcome is
discarded. -/
theorem c3_run_discards_outcome (exec : String → Int) (filename : String) (n : Int)
    (dr db ie fo cl : Bool) (oa : Option String) :
    (Workflow.run exec filename (.int n) dr db ie fo cl oa).1
      = [(buildRunCmd filename n dr db ie fo cl oa,
          exec (buildRunCmd filename n dr db ie fo cl oa))] ∧
    (Workflow.run exec filename (.int n) dr db ie fo cl oa).2 = .ok () :=
  ⟨rfl, rfl⟩

/-- C4 counterexample: `njobs = 0` — a non-positive integer — is not
rejected: no configuration error is reported and the external process is
launched anyway (once, without `-j`), refuting "a non-positive integer
value is rejected just as a non-integer value is". -/
theorem c4_nonpositive_njobs_counterexample :
    (Workflow.run (fun _ => 0) "wf.mk" (.int 0) false false true false false none).1.length
      = 1 ∧
    (Workflow.run (fun _ => 0) "wf.mk" (.int 0) false false true false false none).2
      = .ok () ∧
    (Workflow.run (fun _ => 0) "wf.mk" (.int 0) false false true false false none).1
      = [("make -f wf.mk -i", 0)] :=
  ⟨rfl, rfl, rfl⟩

/-- C4 (amended): only a non-integer `njobs` is a configuration error
(`sys.exit` before any launch); every integer value — including zero and
negatives — is accepted and the external process is launched exactly once
(`-j` is appended only when `njobs > 1`). -/
theorem c4_njobs_validation (exec : String → Int) (filename : String)
    (dr db ie fo cl : Bool) (oa : Option String) :
    Workflow.run exec filename .notInt dr db ie fo cl oa = ([], .error .systemExit) ∧
    ∀ n : Int,
      (Workflow.run exec filename (.int n) dr db ie fo cl oa).1.length = 1 ∧
      (Workflow.run exec filename (.int n) dr db ie fo cl oa).2 = .ok () :=
  ⟨rfl, fun _ => ⟨rfl, rfl⟩⟩

/-- C8 counterexample: a title containing a single quote passed to
`__init__` is embedded verbatim in the pre-build printf recipe — not the
escaped form `escape_char` would produce — refuting "for every title string
passed to initialize or to append, the string embedded ... is escaped". -/
theorem c8_init_title_unescaped_counterexample :
    (Workflow.initFresh (some "it\x27s") true).lines.get? 8
      = some "\t@+printf \x27it\x27s\\n\x27" ∧
    "\t@+printf \x27it\x27s\\n\x27"
      ≠ "\t@+printf \x27" ++ escape_char "it\x27s" ++ "\\n\x27" :=
  ⟨rfl, by decide⟩

/-- C8 (amended): titles passed to `append` are escaped with `escape_char`
(single quote, double quote, newline) before being embedded in the printf
recipe line of the rule block; the title passed to `initialize`, however,
is embedded verbatim without escaping. -/
theorem c8_title_escaping (t : String) (cap : Bool) :
    titleLines (some t) = ["\t@+printf \x27" ++ escape_char t ++ "\\n\x27"] ∧
    (∀ (nv : Bool) (outs : List String) (ins soft : String) (cs : List String) (vb : Bool),
      ("\t@+printf \x27" ++ escape_char t ++ "\\n\x27")
        ∈ ruleBlockLines nv outs ins soft (some t) cs vb) ∧
    (Workflow.initFresh (some t) cap).lines.get? 8
      = some ("\t@+printf \x27" ++ t ++ "\\n\x27") := by
  refine ⟨rfl, ?_, rfl⟩
  intro nv outs ins soft cs vb
  unfold ruleBlockLines
  refine List.mem_append.mpr (Or.inl (List.mem_append.mpr (Or.inl ?_)))
  exact List.mem_append.mpr (Or.inr (List.mem_cons_self _ _))

/-- C9: `display` (render) is idempotent — two calls with no intervening
mutation return byte-identical text — and does not change the document
content or what a subsequent `append` produces (writes still land at the
end of the document, unaffected by the render's read of the file). -/
theorem c9_render_idempotent (wf : Workflow) (cmds ins outs : Arg) (t : Option String)
    (sec : Bool) (soft : Arg) (vb : Bool) :
    (wf.display).1 = ((wf.display).2.display).1 ∧
    ((wf.display).2).lines = wf.lines ∧
    ((wf.display).2).append cmds ins outs t sec soft vb
      = wf.append cmds ins outs t sec soft vb :=
  ⟨rfl, rfl, rfl⟩

/-- C10: in legacy mode (`new_version = false`) an `append` whose outputs
argument normalizes to the empty list fails with `IndexError` — the
unguarded `outputs[0]` — instead of producing a rule; nonempty outputs are
a precondition for `append` to be total in legacy mode. -/
theorem c10_legacy_empty_outputs_raise (wf : Workflow) (hnv : wf.new_version = some false)
    (cmds ins soft outs : Arg) (si ss : String)
    (hins : check_args_inout ins = .ok si)
    (hsoft : check_args_inout soft = .ok ss)
    (houts : check_args_output outs = .ok [])
    (t : Option String) (sec vb : Bool) :
    wf.append cmds ins outs t sec soft vb = .error .indexError := by
  unfold Workflow.append appendCore
  rw [houts, hins, hsoft, hnv]
  have h2 : appendWrite wf.lines false [] si ss t sec cmds vb = .error .indexError := by
    unfold appendWrite
    rw [if_pos ⟨rfl, rfl⟩]
  exact h2

/-- C10 witness: a legacy-mode document, `append` with an empty-string
outputs argument (which normalizes to the empty list). -/
theorem c10_legacy_empty_outputs_raise_witness :
    (Workflow.initFresh none false).append (.str "touch x") (.str "") (.str "")
      none false (.list []) true = .error .indexError :=
  c10_legacy_empty_outputs_raise (Workflow.initFresh none false) rfl
    (.str "touch x") (.str "") (.list []) (.str "") "" "" rfl rfl rfl none false true

/-- C5: over any sequence of non-secondary `append` calls on a freshly
initialized document (whose normalized outputs are nonempty, whitespace-free
tokens), the aggregate target's dependency list equals the concatenation, in
call order, of each call's normalized outputs; when those outputs are
pairwise distinct each appears exactly once; and the list at any successful
prefix of the sequence is a prefix of the final list (monotone growth, no
reordering). -/
theorem c5_aggregate_concatenation (cap : Bool) (calls : List Call) (wf : Workflow)
    (hsec : ∀ c ∈ calls, c.secondary = false)
    (hgood : ∀ c ∈ calls, ∀ o ∈ outsOf c.outputs, goodTok o)
    (happ : appendAll (Workflow.initFresh none cap) calls = .ok wf) :
    aggDeps wf = (calls.map (fun c => outsOf c.outputs)).flatten ∧
    ((calls.map (fun c => outsOf c.outputs)).flatten.Nodup →
      ∀ o ∈ (calls.map (fun c => outsOf c.outputs)).flatten, (aggDeps wf).count o = 1) ∧
    (∀ calls1 calls2 wf1, calls = calls1 ++ calls2 →
      appendAll (Workflow.initFresh none cap) calls1 = .ok wf1 →
      aggDeps wf1 <+: aggDeps wf) := by
  have hmap : calls.map aggContrib = calls.map (fun c => outsOf c.outputs) := by
    refine List.map_congr_left ?_
    intro c hc
    unfold aggContrib
    rw [hsec c hc]
    simp
  have h1 : aggDeps wf = (calls.map (fun c => outsOf c.outputs)).flatten := by
    rw [aggDeps_appendAll_initFresh hgood happ, hmap]
  refine ⟨h1, ?_, ?_⟩
  · intro hnd o ho
    rw [h1]
    exact List.count_eq_one_of_mem hnd ho
  · intro calls1 calls2 wf1 hceq hap1
    have hg1 : ∀ c ∈ calls1, ∀ o ∈ outsOf c.outputs, goodTok o := fun c hc =>
      hgood c (hceq ▸ List.mem_append_left _ hc)
    have h2 : aggDeps wf1 = (calls1.map aggContrib).flatten :=
      aggDeps_appendAll_initFresh hg1 hap1
    have h3 : aggDeps wf = (calls.map aggContrib).flatten :=
      aggDeps_appendAll_initFresh hgood happ
    rw [h2, h3, hceq, List.map_append, List.flatten_append]
    exact List.prefix_append _ _

/-- C5 witness: two chained non-secondary appends, aggregate list becomes
`["o1", "o2"]`, and each output counted once. -/
theorem c5_aggregate_concatenation_witness :
    (appendAll (Workflow.initFresh none true)
      [⟨.str "echo a > o1", .str "", .str "o1", none, false, .list [], true⟩,
       ⟨.str "echo b > o2", .str "o1", .str "o2", none, false, .list [], true⟩]).map aggDeps
      = .ok ["o1", "o2"] := by
  have happ : appendAll (Workflow.initFresh none true)
      [⟨.str "echo a > o1", .str "", .str "o1", none, false, .list [], true⟩,
       ⟨.str "echo b > o2", .str "o1", .str "o2", none, false, .list [], true⟩]
      = .ok ((appendAll (Workflow.initFresh none true)
        [⟨.str "echo a > o1", .str "", .str "o1", none, false, .list [], true⟩,
         ⟨.str "echo b > o2", .str "o1", .str "o2", none, false, .list [], true⟩]).toOption.getD
          (Workflow.initFresh none true)) := rfl
  have h := c5_aggregate_concatenation true
    [⟨.str "echo a > o1", .str "", .str "o1", none, false, .list [], true⟩,
     ⟨.str "echo b > o2", .str "o1", .str "o2", none, false, .list [], true⟩]
    _ (by decide) (by decide) happ
  rw [happ]
  rw [Except.map, h.1]
  rfl

/-- C6 counterexample: two secondary `append` calls on a fresh document
produce a document with two `.SECONDARY` declaration blocks, refuting "the
finished document contains zero or one (a single block covering all outputs
marked non-regenerated)" — the source emits one `.SECONDARY` line per
secondary call. -/
theorem c6_two_secondary_blocks_counterexample :
    (appendAll (Workflow.initFresh none true)
      [⟨.str "touch tmp1", .str "", .str "tmp1", none, true, .list [], true⟩,
       ⟨.str "touch tmp2", .str "", .str "tmp2", none, true, .list [], true⟩]).map
        (fun w => (secLines w).length) = .ok 2 ∧ ¬ (2 ≤ 1) :=
  ⟨rfl, by decide⟩

/-- C6 (amended): secondary outputs never enter the aggregate dependency
list (it equals the concatenated outputs of the non-secondary calls alone,
so a secondary output absent from every non-secondary call is absent from
it), and each secondary call emits its own `.SECONDARY` declaration line
naming exactly that call's outputs — one block per secondary call, not a
single combined block. -/
theorem c6_secondary_declarations (cap : Bool) (calls : List Call) (wf : Workflow)
    (hgood : ∀ c ∈ calls, ∀ o ∈ outsOf c.outputs, cleanTok o)
    (happ : appendAll (Workflow.initFresh none cap) calls = .ok wf) :
    secLines wf = (calls.filter (fun c => c.secondary)).map secLineOf ∧
    aggDeps wf
      = ((calls.filter (fun c => ¬ c.secondary)).map (fun c => outsOf c.outputs)).flatten ∧
    (∀ c ∈ calls, c.secondary = true → ∀ o ∈ outsOf c.outputs,
      (∀ c2 ∈ calls, c2.secondary = false → o ∉ outsOf c2.outputs) → o ∉ aggDeps wf) := by
  have hgoodW : ∀ c ∈ calls, ∀ o ∈ outsOf c.outputs, goodTok o :=
    fun c hc o ho => (hgood c hc o ho).1
  obtain ⟨T', hshape, hfil⟩ :=
    appendAll_full (initFresh_none_shape cap) (by simp) hgood happ
  have hT0 : ("" :: listTarget).filter isSecLine = [] := by decide
  have hA : secLines wf = (calls.filter (fun c => c.secondary)).map secLineOf := by
    rw [secLines_of_shape hshape, hfil, hT0, List.nil_append]
  have hB : aggDeps wf
      = ((calls.filter (fun c => ¬ c.secondary)).map (fun c => outsOf c.outputs)).flatten := by
    rw [aggDeps_appendAll_initFresh hgoodW happ, aggContrib_flatten_eq]
  refine ⟨hA, hB, ?_⟩
  intro c hc _ o _ hnot hmem
  rw [hB] at hmem
  obtain ⟨l, hl, hol⟩ := List.mem_flatten.mp hmem
  obtain ⟨c2, hc2, rfl⟩ := List.mem_map.mp hl
  have hc2m := List.mem_filter.mp hc2
  have hc2sec : c2.secondary = false := by simpa using hc2m.2
  exact hnot c2 hc2m.1 hc2sec hol

/-- C6 witness: one secondary call producing `tmp` then one non-secondary
call producing `final`: a single `.SECONDARY : tmp` line, aggregate list
`["final"]`, and `tmp` not in the aggregate list. -/
theorem c6_secondary_declarations_witness :
    (appendAll (Workflow.initFresh none true)
      [⟨.str "touch tmp", .str "", .str "tmp", none, true, .list [], true⟩,
       ⟨.str "cp tmp final", .str "tmp", .str "final", none, false, .list [], true⟩]).map
        (fun w => (secLines w, aggDeps w)) = .ok ([".SECONDARY : tmp"], ["final"]) := by
  have happ : appendAll (Workflow.initFresh none true)
      [⟨.str "touch tmp", .str "", .str "tmp", none, true, .list [], true⟩,
       ⟨.str "cp tmp final", .str "tmp", .str "final", none, false, .list [], true⟩]
      = .ok ((appendAll (Workflow.initFresh none true)
        [⟨.str "touch tmp", .str "", .str "tmp", none, true, .list [], true⟩,
         ⟨.str "cp tmp final", .str "tmp", .str "final", none, false, .list [], true⟩]).toOption.getD
          (Workflow.initFresh none true)) := rfl
  have h := c6_secondary_declarations true
    [⟨.str "touch tmp", .str "", .str "tmp", none, true, .list [], true⟩,
     ⟨.str "cp tmp final", .str "tmp", .str "final", none, false, .list [], true⟩]
    _ (by decide) happ
  rw [happ, Except.map, h.1, h.2.1]
  rfl

/-- C7: for an `append` with more than one output, the grouped encoding
(capability true) emits exactly one rule-header line, listing every output
joined by spaces before the `&:` separator; the legacy encoding (capability
false) emits a primary header keyed by the first output plus exactly k−1
forwarding headers, the rule for each later output having the previous
output as its sole prerequisite. -/
theorem c7_rule_encodings (outs : List String) (ins soft : String) (title : Option String)
    (cs : List String) (vb : Bool) (hk : 1 < outs.length)
    (hgood : ∀ o ∈ outs, goodTok o) :
    headerLinesOf (ruleBlockLines true outs ins soft title cs vb)
      = [if 0 < soft.length then pyJoinSp outs ++ " &: " ++ ins ++ " | " ++ soft
         else pyJoinSp outs ++ " &: " ++ ins] ∧
    headerLinesOf (ruleBlockLines false outs ins soft title cs vb)
      = (if 0 < soft.length then outs.headD "" ++ " : " ++ ins ++ " | " ++ soft
         else outs.headD "" ++ " : " ++ ins)
        :: (outs.tail.zip outs).map (fun p => p.1 ++ " : " ++ p.2) ∧
    (headerLinesOf (ruleBlockLines false outs ins soft title cs vb)).length
      = outs.length := by
  cases outs with
  | nil => simp at hk
  | cons o0 rest =>
  have ho0 : goodTok o0 := hgood o0 (by simp)
  have htrue : headerLinesOf (ruleBlockLines true (o0 :: rest) ins soft title cs vb)
      = [if 0 < soft.length then pyJoinSp (o0 :: rest) ++ " &: " ++ ins ++ " | " ++ soft
         else pyJoinSp (o0 :: rest) ++ " &: " ++ ins] := by
    unfold headerLinesOf ruleBlockLines
    simp only [List.filter_append, headerFilter_titleLines, headerFilter_cmdBlock,
      if_pos rfl, List.filter_nil, List.append_nil]
    unfold ruleHeaderLines
    rw [if_pos rfl]
    by_cases hs : 0 < soft.length
    · have e1 : isHeaderLine (pyJoinSp (o0 :: rest) ++ " &: " ++ ins ++ " | " ++ soft)
          = true := by
        have := isHeaderLine_joinSp ho0 rest (" &: " ++ ins ++ " | " ++ soft)
        simpa [String.append_assoc] using this
      rw [if_pos hs, List.filter_cons_of_neg (by decide), List.filter_cons_of_pos e1,
        List.filter_nil, if_pos hs]
      simp
    · have e2 : isHeaderLine (pyJoinSp (o0 :: rest) ++ " &: " ++ ins) = true := by
        have := isHeaderLine_joinSp ho0 rest (" &: " ++ ins)
        simpa [String.append_assoc] using this
      rw [if_neg hs, List.filter_cons_of_neg (by decide), List.filter_cons_of_pos e2,
        List.filter_nil, if_neg hs]
      simp
  have hfalse : headerLinesOf (ruleBlockLines false (o0 :: rest) ins soft title cs vb)
      = (if 0 < soft.length then (o0 :: rest).headD "" ++ " : " ++ ins ++ " | " ++ soft
         else (o0 :: rest).headD "" ++ " : " ++ ins)
        :: ((o0 :: rest).tail.zip (o0 :: rest)).map (fun p => p.1 ++ " : " ++ p.2) := by
    unfold headerLinesOf ruleBlockLines
    simp only [List.filter_append, headerFilter_titleLines, headerFilter_cmdBlock,
      List.filter_nil, List.append_nil]
    rw [if_neg Bool.false_ne_true, headerFilter_fwdRules hgood]
    unfold ruleHeaderLines
    rw [if_neg Bool.false_ne_true]
    by_cases hs : 0 < soft.length
    · have e1 : isHeaderLine ((o0 :: rest).headD "" ++ " : " ++ ins ++ " | " ++ soft)
          = true := by
        show isHeaderLine (o0 ++ " : " ++ ins ++ " | " ++ soft) = true
        have := isHeaderLine_goodTok_append ho0 (" : " ++ ins ++ " | " ++ soft)
        simpa [String.append_assoc] using this
      rw [if_pos hs, List.filter_cons_of_neg (by decide), List.filter_cons_of_pos e1,
        List.filter_nil, if_pos hs]
      rfl
    · have e2 : isHeaderLine ((o0 :: rest).headD "" ++ " : " ++ ins) = true := by
        show isHeaderLine (o0 ++ " : " ++ ins) = true
        have := isHeaderLine_goodTok_append ho0 (" : " ++ ins)
        simpa [String.append_assoc] using this
      rw [if_neg hs, List.filter_cons_of_neg (by decide), List.filter_cons_of_pos e2,
        List.filter_nil, if_neg hs]
      rfl
  refine ⟨htrue, hfalse, ?_⟩
  rw [hfalse]
  simp only [List.length_cons, List.length_map, List.length_zip, List.tail_cons,
    List.length_cons]
  omega

/-- C7 witness: two outputs, grouped header lists both; legacy encoding
gives the primary rule plus one forwarding rule `b : a`. -/
theorem c7_rule_encodings_witness :
    headerLinesOf (ruleBlockLines true ["a", "b"] "i" "" none ["c"] true) = ["a b &: i"] ∧
    headerLinesOf (ruleBlockLines false ["a", "b"] "i" "" none ["c"] true)
      = ["a : i", "b : a"] ∧
    (headerLinesOf (ruleBlockLines false ["a", "b"] "i" "" none ["c"] true)).length = 2 := by
  have h := c7_rule_encodings ["a", "b"] "i" "" none ["c"] true (by decide) (by decide)
  refine ⟨?_, ?_, ?_⟩
  · rw [h.1]
    rfl
  · rw [h.2.1]
    rfl
  · rw [h.2.2]
    rfl

end MakeWorkflow
